import Mathlib

/-!
Shallow embedding of the `discover-stocks` investment-simulation engine
(`src/pages/investment_simulation.py`) and proofs about the spec's claims.

Money amounts are modelled as exact rationals (`ℚ`), dates as natural
numbers (days since an anchor Monday, so `weekday d = d % 7` with
Monday = 0 .. Sunday = 6, matching Python's `date.weekday()`).
Ticker codes are `String`s, portfolios are association lists in dict
insertion order.
-/

namespace DiscoverStocks

/-- Python `int(x)` truncation toward zero on a rational. -/
def pyInt (q : ℚ) : ℤ :=
  if 0 ≤ q then ⌊q⌋ else ⌈q⌉

/-- Total rate from `TRADING_COSTS`: commission 0.1% + slippage 0.05% + spread 0.02%. -/
def totalCostRate : ℚ := 1/1000 + 5/10000 + 2/10000

/-- Cost model `calculate_trading_cost(trade_value)` at the default rates. -/
def calculate_trading_cost (trade_value : ℚ) : ℚ :=
  trade_value * totalCostRate

/-- Predicate `stock_code[0].isdigit()`: the membership test deciding the JPY ("日本株")
versus USD ("米国株") bucket. `false` on the empty string (the Python code
would raise there; it never receives an empty code). -/
def firstCharIsDigit (s : String) : Bool :=
  match s.data with
  | [] => false
  | c :: _ => c.isDigit

/-- A ticker code is all digits (the property the spec claim C9 speaks of). -/
def allDigits (s : String) : Bool :=
  s.data.all Char.isDigit

/-- Contribution of one `(stock_code, shares)` entry to
`calculate_portfolio_value`: skip missing prices, prices outside
`(0, 1000000]`, USD legs with an FX rate outside `(0, 1000]`, and any
single-position value above the 10-trillion ceiling. -/
def positionValue (prices : String → Option ℚ) (exchangeRate : Option ℚ)
    (stock_code : String) (shares : ℕ) : ℚ :=
  match prices stock_code with
  | none => 0
  | some price =>
    if price ≤ 0 ∨ price > 1000000 then 0
    else
      let stockValue : ℚ := (shares : ℚ) * price
      match exchangeRate with
      | some rate =>
        if firstCharIsDigit stock_code then
          if stockValue > 10000000000000 then 0 else stockValue
        else
          if rate ≤ 0 ∨ rate > 1000 then 0
          else if stockValue * rate > 10000000000000 then 0
          else stockValue * rate
      | none =>
        if stockValue > 10000000000000 then 0 else stockValue

/-- Valuator `calculate_portfolio_value(portfolio, current_prices, allocation_ratios,
exchange_rate)`.  The `allocation_ratios` parameter is unused in the Python
body and is omitted here. -/
def calculate_portfolio_value (portfolio : List (String × ℕ))
    (prices : String → Option ℚ) (exchangeRate : Option ℚ) : ℚ :=
  portfolio.foldl (fun total p => total + positionValue prices exchangeRate p.1 p.2) 0

/-- Weekday as in `date.weekday()`: Monday = 0 .. Sunday = 6, with day 0 an anchor Monday. -/
def weekday (d : ℕ) : ℕ := d % 7

/-- Fuel-indexed unfolding of the
`while yesterday.weekday() >= 5: yesterday -= timedelta(days=1)` loop.
Each iteration needs `d % 7 ≥ 5`, hence `d ≥ 5 > 0`, so fuel `d` always
suffices; `skipWeekendBack_eq` below recovers the loop's exact equation. -/
def skipWeekendBackAux : ℕ → ℕ → ℕ
  | 0, d => d
  | fuel + 1, d => if 5 ≤ d % 7 then skipWeekendBackAux fuel (d - 1) else d

/-- The weekend-skipping backward walk itself. -/
def skipWeekendBack (d : ℕ) : ℕ := skipWeekendBackAux d d

theorem skipWeekendBackAux_congr :
    ∀ (d f₁ f₂ : ℕ), d ≤ f₁ → d ≤ f₂ →
      skipWeekendBackAux f₁ d = skipWeekendBackAux f₂ d := by
  intro d
  induction d using Nat.strong_induction_on with
  | _ d ih =>
    intro f₁ f₂ h₁ h₂
    by_cases hw : 5 ≤ d % 7
    · have hd5 : 5 ≤ d := le_trans hw (Nat.mod_le d 7)
      obtain ⟨g₁, rfl⟩ : ∃ g, f₁ = g + 1 := ⟨f₁ - 1, by omega⟩
      obtain ⟨g₂, rfl⟩ : ∃ g, f₂ = g + 1 := ⟨f₂ - 1, by omega⟩
      simp only [skipWeekendBackAux, if_pos hw]
      exact ih (d - 1) (by omega) g₁ g₂ (by omega) (by omega)
    · cases f₁ with
      | zero => cases f₂ with
        | zero => rfl
        | succ g => simp [skipWeekendBackAux, if_neg hw]
      | succ g₁ => cases f₂ with
        | zero => simp [skipWeekendBackAux, if_neg hw]
        | succ g₂ => simp [skipWeekendBackAux, if_neg hw]

/-- The loop equation of the weekend-skipping walk: step back one calendar
day while the current day is a Saturday (`5`) or Sunday (`6`). -/
theorem skipWeekendBack_eq (d : ℕ) :
    skipWeekendBack d = if 5 ≤ d % 7 then skipWeekendBack (d - 1) else d := by
  by_cases hw : 5 ≤ d % 7
  · have hd5 : 5 ≤ d := le_trans hw (Nat.mod_le d 7)
    obtain ⟨e, rfl⟩ : ∃ e, d = e + 1 := ⟨d - 1, by omega⟩
    rw [if_pos hw]
    show skipWeekendBackAux (e + 1) (e + 1) = _
    simp only [skipWeekendBackAux, if_pos hw]
    exact skipWeekendBackAux_congr e e e le_rfl le_rfl ▸ rfl
  · cases d with
    | zero => simp [skipWeekendBack, skipWeekendBackAux]
    | succ e =>
      rw [if_neg hw]
      show skipWeekendBackAux (e + 1) (e + 1) = e + 1
      simp [skipWeekendBackAux, if_neg hw]

/-- Day `yesterday` as computed on simulated day `d`: the previous calendar day,
then weekends skipped backward. -/
def previousTradingDay (d : ℕ) : ℕ := skipWeekendBack (d - 1)

/-- Flag `is_trade_day = yesterday.weekday() in [1, 5]`. -/
def is_trade_day (d : ℕ) : Bool :=
  weekday (previousTradingDay d) = 1 ∨ weekday (previousTradingDay d) = 5

/-- The rebalance block actually runs on day `d` iff `is_trade_day` and the
vote day produced at least one ranked ticker in either bucket
(`if jpy_stocks or usd_stocks:`). -/
def rebalanceRuns (d : ℕ) (jpyStocks usdStocks : List (String × ℕ)) : Bool :=
  is_trade_day d ∧ (¬jpyStocks.isEmpty ∨ ¬usdStocks.isEmpty)

/-- Vote split `get_vote_results_for_date_separated`, given the vote tally
(`all_results`, ordered by vote count descending): split on
`stock_code[0].isdigit()` and keep the first 10 of each bucket. -/
def get_vote_results_for_date_separated (all_results : List (String × ℕ)) :
    List (String × ℕ) × List (String × ℕ) :=
  let jpy_stocks := all_results.filter (fun r => firstCharIsDigit r.1)
  let usd_stocks := all_results.filter (fun r => ¬firstCharIsDigit r.1)
  (jpy_stocks.take 10, usd_stocks.take 10)

/-! ## Price cache (`save_price_to_cache` / `get_price_from_cache`) -/

/-- One row of the `price_cache` table. -/
structure CacheEntry where
  stock_code : String
  date : String
  price : ℚ
  currency : String
deriving DecidableEq, Repr

/-- Modelled from the spec: the `price_cache` table schema lives in
`utils.db.init_price_cache_table`, which is not under `src/`; the spec's
Data Model fixes its primary key as `(ticker, date)`.  With that key,
SQLite's `INSERT OR REPLACE` in `save_price_to_cache` deletes any existing
row with the same `(stock_code, date)` and inserts the new row. -/
def save_price_to_cache (cache : List CacheEntry) (stock_code date : String)
    (price : ℚ) (currency : String) : List CacheEntry :=
  (cache.filter fun e => ¬(e.stock_code = stock_code ∧ e.date = date)) ++
    [⟨stock_code, date, price, currency⟩]

/-- Cache read `get_price_from_cache`: `SELECT price ... WHERE stock_code = ? AND date = ?`
and `fetchone` (the row is unique thanks to the primary key). -/
def get_price_from_cache (cache : List CacheEntry) (stock_code date : String) :
    Option ℚ :=
  (cache.find? fun e => e.stock_code = stock_code ∧ e.date = date).map (·.price)

/-! ## Trade records -/

inductive TradeAction
  /-- Action `'購入'` -/
  | buy
  /-- Action `'売却'` -/
  | sell
deriving DecidableEq, Repr

inductive Currency
  | JPY
  | USD
deriving DecidableEq, Repr

/-- One entry of `trade_history` (display-only fields omitted). -/
structure Trade where
  date : ℕ
  vote_date : ℕ
  stock_code : String
  action : TradeAction
  shares : ℕ
  price : ℚ
  value : ℚ
  currency : Currency
  exchange_rate : Option ℚ
deriving DecidableEq, Repr

/-- The cash delta the spec attributes to a recorded trade:
`−(shares×price + cost)` for a buy, `shares×price − cost` for a sell. -/
def claimedCashDelta (t : Trade) : ℚ :=
  match t.action with
  | .buy => -((t.shares : ℚ) * t.price + calculate_trading_cost ((t.shares : ℚ) * t.price))
  | .sell => (t.shares : ℚ) * t.price - calculate_trading_cost ((t.shares : ℚ) * t.price)

/-! ## Rebalance pipeline (one currency bucket)

The JPY block (lines 386–639) and the USD block (lines 641–900) of
`simulate_investment` run the same algorithm on their own cash pool and
price/vote universe; the bucket-specific inputs are gathered in
`RebalanceEnv`.  `otherValue` is the JPY-converted value contributed by the
*other* bucket to the grand totals used by the 50× guard, and `otherEmpty`
is the other bucket's emptiness as used by the first-trade test. -/

structure RebalanceEnv where
  price : String → Option ℚ
  votes : List (String × ℕ)
  alloc : List ℚ
  initial : ℚ
  initialTotal : ℚ
  otherValue : ℚ
  otherEmpty : Bool
  currency : Currency
  exchange_rate : Option ℚ
  tradeDate : ℕ
  voteDate : ℕ

/-- Lookup `dict.get(code, 0)` on an association list of share counts. -/
def lookupShares (l : List (String × ℕ)) (code : String) : ℕ :=
  ((l.find? fun e => e.1 == code).map (·.2)).getD 0

/-- Lookup `dict.get(code)` on an association list of share counts. -/
def lookupShares? (l : List (String × ℕ)) (code : String) : Option ℕ :=
  (l.find? fun e => e.1 == code).map (·.2)

/-- Assignment `d[code] = n` on a Python dict rendered as an association list:
update in place if present, else append (insertion order). -/
def setShares (l : List (String × ℕ)) (code : String) (n : ℕ) :
    List (String × ℕ) :=
  if l.any (fun e => e.1 == code) then
    l.map fun e => if e.1 == code then (e.1, n) else e
  else l ++ [(code, n)]

/-- Step 1, exit pass: fully liquidate every held ticker absent from the
ranked vote list, when its price is available; returns the recorded sell
trades, the cash proceeds (`*_cash_from_sales`), and the surviving
portfolio (`temp_*_portfolio`). -/
def exitPass (env : RebalanceEnv) :
    List (String × ℕ) → List Trade × ℚ × List (String × ℕ)
  | [] => ([], 0, [])
  | (code, shares) :: rest =>
    let (ts, proceeds, kept) := exitPass env rest
    if env.votes.any (fun v => v.1 == code) then
      (ts, proceeds, (code, shares) :: kept)
    else
      match env.price code with
      | some p =>
        let sellValue := (shares : ℚ) * p
        let sellCost := calculate_trading_cost sellValue
        (⟨env.tradeDate, env.voteDate, code, .sell, shares, p, sellValue,
          env.currency, env.exchange_rate⟩ :: ts,
         sellValue - sellCost + proceeds, kept)
      | none => (ts, proceeds, (code, shares) :: kept)

/-- The investable-capital determination (used once with the post-exit
state and once with the post-trim state): the per-bucket initial capital on
the first trade or when the grand total exceeds 50× the initial total,
otherwise portfolio value plus cash. -/
def investmentValue (env : RebalanceEnv) (firstTrade : Bool)
    (portValue cash : ℚ) : ℚ :=
  if firstTrade then env.initial
  else if portValue + cash + env.otherValue > env.initialTotal * 50 then env.initial
  else portValue + cash

/-- Target share count for one ranked ticker: `int((tv − cost(tv)) / price)`,
as a natural number (the `target_shares > 0` filter makes the `ℤ → ℕ`
truncation faithful). -/
def targetSharesCalc (target_value p : ℚ) : ℕ :=
  (pyInt ((target_value - calculate_trading_cost target_value) / p)).toNat

/-- Step 3 target computation, walking the ranked vote list with its rank
index: keep tickers with an allocation weight at their rank, an available
positive price, and a positive target share count. -/
def targetPortfolioAux (env : RebalanceEnv) (inv : ℚ) :
    ℕ → List (String × ℕ) → List (String × ℕ)
  | _, [] => []
  | i, (code, _) :: rest =>
    let tail := targetPortfolioAux env inv (i + 1) rest
    match env.alloc.get? i with
    | none => tail
    | some w =>
      let target_value := inv * (w / 100)
      match env.price code with
      | none => tail
      | some p =>
        if p > 0 then
          let t := targetSharesCalc target_value p
          if t > 0 then (code, t) :: tail else tail
        else tail

/-- The target portfolio for a given investable capital. -/
def targetPortfolio (env : RebalanceEnv) (inv : ℚ) : List (String × ℕ) :=
  targetPortfolioAux env inv 0 env.votes

/-- Step 2, `additional_cash_from_sales`: net proceeds of the trims implied
by the *provisional* target, computed before any trim executes. -/
def additionalSales (env : RebalanceEnv) (tempTarget : List (String × ℕ)) :
    List (String × ℕ) → ℚ
  | [] => 0
  | (code, cur) :: rest =>
    let acc := additionalSales env tempTarget rest
    let t := lookupShares tempTarget code
    if t < cur then
      match env.price code with
      | some p =>
        let sellValue := ((cur - t : ℕ) : ℚ) * p
        sellValue - calculate_trading_cost sellValue + acc
      | none => acc
    else acc

/-- The gross value of the provisional trims, subtracted from the post-exit
portfolio value to obtain `final_*_portfolio_value`. -/
def trimValue (env : RebalanceEnv) (tempTarget : List (String × ℕ)) :
    List (String × ℕ) → ℚ
  | [] => 0
  | (code, cur) :: rest =>
    let acc := trimValue env tempTarget rest
    let t := lookupShares tempTarget code
    if t < cur then
      match env.price code with
      | some p => ((cur - t : ℕ) : ℚ) * p + acc
      | none => acc
    else acc

/-- Step 3 execution, trim pass: for each held ticker whose *final* target
is below its current count, record a sell of the excess and set the held
count to the target (cash is updated separately, from `additionalSales`). -/
def trimPass (env : RebalanceEnv) (finalTarget : List (String × ℕ)) :
    List (String × ℕ) → List Trade × List (String × ℕ)
  | [] => ([], [])
  | (code, cur) :: rest =>
    let (ts, port) := trimPass env finalTarget rest
    let t := lookupShares finalTarget code
    if t < cur then
      match env.price code with
      | some p =>
        let sellValue := ((cur - t : ℕ) : ℚ) * p
        (⟨env.tradeDate, env.voteDate, code, .sell, cur - t, p, sellValue,
          env.currency, env.exchange_rate⟩ :: ts,
         (code, t) :: port)
      | none => (ts, (code, cur) :: port)
    else (ts, (code, cur) :: port)

/-- Step 4, buy pass: walk the target portfolio, buying each shortfall in
full when cash suffices, otherwise the maximal affordable quantity at 99%
of cash; every deduction is guarded by `total_cost <= cash`. -/
def buyPass (env : RebalanceEnv) :
    List (String × ℕ) → List (String × ℕ) → ℚ →
      List (String × ℕ) × ℚ × List Trade
  | [], port, cash => (port, cash, [])
  | (code, target) :: rest, port, cash =>
    let cur := lookupShares port code
    if target > cur then
      match env.price code with
      | some p =>
        if p > 0 then
          let sharesToBuy := target - cur
          let buyValue := (sharesToBuy : ℚ) * p
          let buyCost := calculate_trading_cost buyValue
          let totalCost := buyValue + buyCost
          if totalCost ≤ cash then
            let (pf, cf, ts) := buyPass env rest (setShares port code target) (cash - totalCost)
            (pf, cf, ⟨env.tradeDate, env.voteDate, code, .buy, sharesToBuy, p,
              buyValue, env.currency, env.exchange_rate⟩ :: ts)
          else
            let avail := (pyInt ((cash * (99/100)) / (p * (1 + totalCostRate)))).toNat
            if avail > 0 then
              let buyValue2 := (avail : ℚ) * p
              let buyCost2 := calculate_trading_cost buyValue2
              let totalCost2 := buyValue2 + buyCost2
              if totalCost2 ≤ cash then
                let (pf, cf, ts) := buyPass env rest (setShares port code (cur + avail)) (cash - totalCost2)
                (pf, cf, ⟨env.tradeDate, env.voteDate, code, .buy, avail, p,
                  buyValue2, env.currency, env.exchange_rate⟩ :: ts)
              else buyPass env rest port cash
            else buyPass env rest port cash
        else buyPass env rest port cash
      | none => buyPass env rest port cash
    else buyPass env rest port cash

/-- Result of one bucket's rebalance. -/
structure RebalanceResult where
  trades : List Trade
  cash : ℚ
  portfolio : List (String × ℕ)

/-- The provisional investable capital (`temp_*_investment_value`). -/
def tempInvestment (env : RebalanceEnv) (portfolio0 : List (String × ℕ))
    (cash0 : ℚ) : ℚ :=
  let (_, proceeds, temp1) := exitPass env portfolio0
  let cash1 := cash0 + proceeds
  let tempVal := calculate_portfolio_value temp1 env.price none
  investmentValue env (temp1.isEmpty && env.otherEmpty) tempVal cash1

/-- The provisional target portfolio (`temp_target_*_portfolio`). -/
def tempTargetOf (env : RebalanceEnv) (portfolio0 : List (String × ℕ))
    (cash0 : ℚ) : List (String × ℕ) :=
  targetPortfolio env (tempInvestment env portfolio0 cash0)

/-- The final investable capital (`*_investment_value`), recomputed after
accounting for the provisional trims. -/
def finalInvestment (env : RebalanceEnv) (portfolio0 : List (String × ℕ))
    (cash0 : ℚ) : ℚ :=
  let (_, proceeds, temp1) := exitPass env portfolio0
  let cash1 := cash0 + proceeds
  let tempVal := calculate_portfolio_value temp1 env.price none
  let tempTarget := tempTargetOf env portfolio0 cash0
  let finalCash := cash1 + additionalSales env tempTarget temp1
  let finalVal := tempVal - trimValue env tempTarget temp1
  investmentValue env (temp1.isEmpty && env.otherEmpty) finalVal finalCash

/-- The final target portfolio (`target_*_portfolio`). -/
def finalTargetOf (env : RebalanceEnv) (portfolio0 : List (String × ℕ))
    (cash0 : ℚ) : List (String × ℕ) :=
  targetPortfolio env (finalInvestment env portfolio0 cash0)

/-- One bucket's whole rebalance: exit pass, provisional target and trim
proceeds, final target, trim pass, buy pass.  Trades are listed in the
order `trade_history` receives them. -/
def rebalanceBucket (env : RebalanceEnv) (portfolio0 : List (String × ℕ))
    (cash0 : ℚ) : RebalanceResult :=
  let (exitTrades, proceeds, temp1) := exitPass env portfolio0
  let cash1 := cash0 + proceeds
  let tempTarget := tempTargetOf env portfolio0 cash0
  let addCash := additionalSales env tempTarget temp1
  let finalTarget := finalTargetOf env portfolio0 cash0
  let (trimTrades, temp2) := trimPass env finalTarget temp1
  let cash2 := cash1 + addCash
  let (portF, cashF, buyTrades) := buyPass env finalTarget temp2 cash2
  ⟨exitTrades ++ trimTrades ++ buyTrades, cashF, portF⟩

/-! ## Realized-P&L reconstruction (`create_calendar_heatmap` / `show`) -/

/-- Trade `buy` is an eligible match for `sell`: same ticker, a `購入`, dated
strictly before the sell. -/
def isPriorBuy (sell buy : Trade) : Bool :=
  buy.stock_code == sell.stock_code && buy.action == .buy && buy.date < sell.date

/-- One step of the matching-buy scan: adopt `buy` when it is an eligible
prior buy and either no candidate is held yet or its date is strictly later
than the held candidate's (`buy['date'] > buy_trade['date']`; on a date tie
the earlier-scanned candidate is kept). -/
def matchStep (sell : Trade) (buy_trade : Option Trade) (buy : Trade) : Option Trade :=
  if isPriorBuy sell buy then
    match buy_trade with
    | none => some buy
    | some best => if buy.date > best.date then some buy else buy_trade
  else buy_trade

/-- The matching-buy search: scan the whole ledger with `matchStep`. -/
def findMatchingBuy (history : List Trade) (sell : Trade) : Option Trade :=
  history.foldl (matchStep sell) none

/-- The realized-P&L contribution of one sell:
`(sell_price − buy_price) × shares`, times the sell's own recorded exchange
rate when the sell is in USD and the rate is truthy; `0` when no matching
buy exists. -/
def sellPnl (history : List Trade) (t : Trade) : ℚ :=
  match findMatchingBuy history t with
  | none => 0
  | some b =>
    let pnl := (t.price - b.price) * (t.shares : ℚ)
    match t.currency, t.exchange_rate with
    | .USD, some r => if r = 0 then pnl else pnl * r
    | _, _ => pnl

/-- Total `cumulative_realized_pnl` as of a date: fold over the ledger, adding the
contribution of every `売却` dated at or before the as-of date. -/
def realizedPnl (history : List Trade) (asOf : ℕ) : ℚ :=
  history.foldl
    (fun acc t =>
      if t.date ≤ asOf && t.action == .sell then acc + sellPnl history t else acc)
    0

/-! ## Simulation loop skeleton (`simulate_investment` control flow)

The claims about FX-failure handling concern only the loop's control flow,
so the per-day rebalance/valuation work is abstracted into an arbitrary
`step : σ → ℕ → ℚ → σ × List Trade × α` (state, day, day's FX rate ↦ new
state, the day's appended trades, the day's snapshot payload); the theorems
hold for every such `step`, in particular for the real one. -/

/-- The daily loop body over an explicit list of calendar days: skip
weekends, skip days whose FX rate is missing or non-positive, otherwise run
the day and append one snapshot tagged with the day. -/
def simDays {σ α : Type} (fx : ℕ → Option ℚ)
    (step : σ → ℕ → ℚ → σ × List Trade × α) :
    List ℕ → σ → List (ℕ × α) × List Trade
  | [], _ => ([], [])
  | d :: rest, s =>
    if 5 ≤ weekday d then simDays fx step rest s
    else
      match fx d with
      | none => simDays fx step rest s
      | some r =>
        if r ≤ 0 then simDays fx step rest s
        else
          let (s', trades, snap) := step s d r
          let (snaps, ts) := simDays fx step rest s'
          ((d, snap) :: snaps, trades ++ ts)

/-- Control skeleton of `simulate_investment`: resolve the start-date FX rate
(the initial state, e.g. `usd_cash = initial_usd / rate`, may depend on it);
abort with empty results when it is missing or non-positive, else run the
daily loop. -/
def simulateSkeleton {σ α : Type} (fx : ℕ → Option ℚ)
    (step : σ → ℕ → ℚ → σ × List Trade × α) (startDay : ℕ) (days : List ℕ)
    (init : ℚ → σ) : List (ℕ × α) × List Trade :=
  match fx startDay with
  | none => ([], [])
  | some r => if r ≤ 0 then ([], []) else simDays fx step days (init r)

/-! ## General helper lemmas -/

theorem calculate_portfolio_value_eq_sum (portfolio : List (String × ℕ))
    (prices : String → Option ℚ) (er : Option ℚ) :
    calculate_portfolio_value portfolio prices er =
      (portfolio.map fun e => positionValue prices er e.1 e.2).sum := by
  suffices h : ∀ acc : ℚ,
      portfolio.foldl (fun total p => total + positionValue prices er p.1 p.2) acc =
        acc + (portfolio.map fun e => positionValue prices er e.1 e.2).sum by
    simpa [calculate_portfolio_value] using h 0
  induction portfolio with
  | nil => simp
  | cons hd tl ih => intro acc; simp [ih, add_assoc]

theorem positionValue_nonneg (prices : String → Option ℚ) (er : Option ℚ)
    (code : String) (s : ℕ) : 0 ≤ positionValue prices er code s := by
  unfold positionValue
  cases hp : prices code with
  | none => simp
  | some p =>
    dsimp only
    split
    · exact le_refl 0
    · rename_i hval
      push_neg at hval
      have hppos : 0 < p := hval.1
      have hs : (0 : ℚ) ≤ (s : ℚ) * p := by positivity
      cases er with
      | none =>
        dsimp only
        split
        · exact le_refl 0
        · exact hs
      | some r =>
        dsimp only
        split
        · split
          · exact le_refl 0
          · exact hs
        · split
          · exact le_refl 0
          · split
            · exact le_refl 0
            · rename_i hr _
              push_neg at hr
              have : (0:ℚ) ≤ r := le_of_lt hr.1
              positivity

/-! ## Claim C1 -/

/-- C1: the transition rule misses Saturday vote days.  With day 0 an anchor
Monday, day 5 is a Saturday — weekday `5` is one of the two designated vote
weekdays in the `yesterday.weekday() in [1, 5]` test — and the trading day
immediately following it is day 7 (Monday; days 5 and 6 are the weekend).
Yet the engine does not treat day 7 as a trade day even with a non-empty
ranked list from the Saturday vote, because the previous-trading-day search
`while yesterday.weekday() >= 5` itself skips Saturdays and lands on day 4
(Friday).  By contrast day 9 (Wednesday), following Tuesday day 8, is
recognised: the `1` branch is live while the `5` branch is unreachable,
contradicting the inline comment `前日が火曜日(1)または土曜日(5)の投票日だった場合、
今日が取引日`. -/
theorem c1_saturday_vote_day_produces_no_rebalance :
    weekday 5 = 5 ∧ weekday 6 = 6 ∧ weekday 7 = 0 ∧
      previousTradingDay 7 = 4 ∧ is_trade_day 7 = false ∧
      rebalanceRuns 7 [("7203", 3)] [] = false ∧
      previousTradingDay 9 = 8 ∧ weekday 8 = 1 ∧ is_trade_day 9 = true := by
  decide

/-! ## Claim C8 -/

/-- C8 (counterexample): the price cache does overwrite.  After saving price
100 and then price 200 for the same `(stock_code, date)` key, the value
retrievable for that key is 200, not the originally stored 100. -/
theorem c8_cache_overwrites_counterexample :
    get_price_from_cache
        (save_price_to_cache
          (save_price_to_cache [] "7203" "2024-01-05" 100 "JPY")
          "7203" "2024-01-05" 200 "JPY")
        "7203" "2024-01-05" = some 200 ∧
      get_price_from_cache
          (save_price_to_cache
            (save_price_to_cache [] "7203" "2024-01-05" 100 "JPY")
            "7203" "2024-01-05" 200 "JPY")
          "7203" "2024-01-05" ≠ some 100 := by
  decide

/-- C8 (amended): the cache write is `INSERT OR REPLACE` on the
`(stock_code, date)` key, so after two saves to the same key the *later*
price is the one retrievable — last write wins, for every starting cache
state. -/
theorem c8_cache_last_write_wins (cache : List CacheEntry) (code date : String)
    (p₁ p₂ : ℚ) (c₁ c₂ : String) :
    get_price_from_cache
        (save_price_to_cache (save_price_to_cache cache code date p₁ c₁)
          code date p₂ c₂) code date = some p₂ := by
  unfold get_price_from_cache save_price_to_cache
  have hnone : ∀ l : List CacheEntry,
      (l.filter fun e => ¬(e.stock_code = code ∧ e.date = date)).find?
        (fun e => e.stock_code = code ∧ e.date = date) = none := by
    intro l
    rw [List.find?_eq_none]
    intro x hx
    rw [List.mem_filter] at hx
    have := hx.2
    simp only [decide_eq_true_eq] at this ⊢
    exact this
  rw [List.find?_append, hnone]
  simp [List.find?]

/-! ## Claim C9 -/

/-- C9 (counterexample): the bucket split is not the all-digits test.  The
code `"7A"` is not all-digits, yet `get_vote_results_for_date_separated`
places it in the JPY bucket (and not the USD bucket), because the split
tests only the first character. -/
theorem c9_split_not_all_digits_counterexample :
    get_vote_results_for_date_separated [("7A", 3)] = ([("7A", 3)], []) ∧
      allDigits "7A" = false ∧ firstCharIsDigit "7A" = true := by
  decide

/-- C9 (amended): every ticker lands in at most one currency bucket, and
membership is determined solely by whether the *first character* of its code
is a digit: a leading-digit code goes to the JPY bucket, any other code to
the USD bucket; the Portfolio Valuator branches on the same predicate, never
FX-converting a leading-digit code. -/
theorem c9_first_char_digit_partitions (results : List (String × ℕ))
    (entry : String × ℕ) (prices : String → Option ℚ) (r : ℚ) (s : ℕ) :
    (entry ∈ (get_vote_results_for_date_separated results).1 →
        firstCharIsDigit entry.1 = true) ∧
      (entry ∈ (get_vote_results_for_date_separated results).2 →
        firstCharIsDigit entry.1 = false) ∧
      ¬(entry ∈ (get_vote_results_for_date_separated results).1 ∧
        entry ∈ (get_vote_results_for_date_separated results).2) ∧
      (firstCharIsDigit entry.1 = true →
        positionValue prices (some r) entry.1 s = positionValue prices none entry.1 s) := by
  refine ⟨?_, ?_, ?_, ?_⟩
  · intro h
    have h' := List.mem_of_mem_take h
    exact (List.mem_filter.mp h').2
  · intro h
    have h' := List.mem_of_mem_take h
    have := (List.mem_filter.mp h').2
    simpa using this
  · rintro ⟨h1, h2⟩
    have e1 := (List.mem_filter.mp (List.mem_of_mem_take h1)).2
    have e2 := (List.mem_filter.mp (List.mem_of_mem_take h2)).2
    simp [e1] at e2
  · intro h
    unfold positionValue
    cases prices entry.1 with
    | none => rfl
    | some p => simp [h]

theorem c9_witness :
    ("7203", 1) ∈ (get_vote_results_for_date_separated [("7203", 1), ("AAPL", 2)]).1 ∧
      firstCharIsDigit "7203" = true :=
  ⟨by decide,
    (c9_first_char_digit_partitions [("7203", 1), ("AAPL", 2)] ("7203", 1)
      (fun _ => none) 1 0).1 (by decide)⟩

/-! ## Claim C4 -/

/-- The FX multiplier a position's raw value receives in the valuator. -/
def fxFactor (er : Option ℚ) (code : String) : ℚ :=
  match er with
  | none => 1
  | some r => if firstCharIsDigit code then 1 else r

/-- Price feed for the C4 counterexample: "7203" is quoted at the maximal
valid price of 1,000,000. -/
def priceC4 : String → Option ℚ :=
  fun c => if c = "7203" then some 1000000 else none

/-- C4 (counterexample): the valuator is not monotone in a position's share
count.  At the valid price 1,000,000, raising the single held position
"7203" from 10,000,000 to 10,000,001 shares drops
`calculate_portfolio_value` from 10¹³ to 0: the larger valuation exceeds the
hard 10¹³ single-position ceiling and is discarded wholesale. -/
theorem c4_monotonicity_counterexample :
    calculate_portfolio_value [("7203", 10000000)] priceC4 none = 10000000000000 ∧
      calculate_portfolio_value [("7203", 10000001)] priceC4 none = 0 := by
  constructor <;>
    norm_num [calculate_portfolio_value, positionValue, priceC4, List.foldl,
      firstCharIsDigit]

theorem positionValue_mono (prices : String → Option ℚ) (er : Option ℚ)
    (code : String) (s s' : ℕ) (p : ℚ) (hp : prices code = some p) (hs : s ≤ s')
    (hceil : (s' : ℚ) * p * fxFactor er code ≤ 10000000000000) :
    positionValue prices er code s ≤ positionValue prices er code s' := by
  unfold positionValue
  rw [hp]
  dsimp only
  by_cases hval : p ≤ 0 ∨ p > 1000000
  · rw [if_pos hval, if_pos hval]
  · rw [if_neg hval, if_neg hval]
    push_neg at hval
    obtain ⟨hp0, _⟩ := hval
    have hsQ : (s : ℚ) ≤ (s' : ℚ) := by exact_mod_cast hs
    have hsp : (s : ℚ) * p ≤ (s' : ℚ) * p :=
      mul_le_mul_of_nonneg_right hsQ (le_of_lt hp0)
    cases er with
    | none =>
      simp only [fxFactor, mul_one] at hceil
      rw [if_neg (not_lt.mpr hceil), if_neg (not_lt.mpr (le_trans hsp hceil))]
      exact hsp
    | some r =>
      by_cases hd : firstCharIsDigit code
      · have hfx : fxFactor (some r) code = 1 := by simp [fxFactor, hd]
        rw [hfx, mul_one] at hceil
        simp only [hd, if_true]
        rw [if_neg (not_lt.mpr hceil), if_neg (not_lt.mpr (le_trans hsp hceil))]
        exact hsp
      · have hfx : fxFactor (some r) code = r := by simp [fxFactor, hd]
        rw [hfx] at hceil
        simp only [hd, Bool.false_eq_true, if_false]
        by_cases hr : r ≤ 0 ∨ r > 1000
        · rw [if_pos hr, if_pos hr]
        · rw [if_neg hr, if_neg hr]
          push_neg at hr
          have hrpos : 0 < r := hr.1
          have hspr : (s : ℚ) * p * r ≤ (s' : ℚ) * p * r :=
            mul_le_mul_of_nonneg_right hsp (le_of_lt hrpos)
          rw [if_neg (not_lt.mpr hceil), if_neg (not_lt.mpr (le_trans hspr hceil))]
          exact hspr

/-- C4 (amended): `calculate_portfolio_value` is monotonically non-decreasing
in a single held ticker's share count — all other positions, the price map and
the FX rate held fixed — *provided* the larger share count's converted
single-position valuation stays within the hard 10¹³ absolute ceiling (a
position whose valuation exceeds the ceiling is discarded, which is what the
counterexample exploits). -/
theorem c4_valuation_monotone_below_ceiling (A B : List (String × ℕ))
    (code : String) (s s' : ℕ) (prices : String → Option ℚ) (er : Option ℚ)
    (p : ℚ) (hp : prices code = some p) (hs : s ≤ s')
    (hceil : (s' : ℚ) * p * fxFactor er code ≤ 10000000000000) :
    calculate_portfolio_value (A ++ (code, s) :: B) prices er ≤
      calculate_portfolio_value (A ++ (code, s') :: B) prices er := by
  rw [calculate_portfolio_value_eq_sum, calculate_portfolio_value_eq_sum]
  simp only [List.map_append, List.map_cons, List.sum_append, List.sum_cons]
  have h := positionValue_mono prices er code s s' p hp hs hceil
  have hA := le_refl (List.sum (A.map fun e => positionValue prices er e.1 e.2))
  have hB := le_refl (List.sum (B.map fun e => positionValue prices er e.1 e.2))
  linarith

theorem c4_witness :
    priceC4 "7203" = some 1000000 ∧ (1 : ℕ) ≤ 2 ∧
      ((2 : ℕ) : ℚ) * 1000000 * fxFactor none "7203" ≤ 10000000000000 ∧
      calculate_portfolio_value [("7203", 1)] priceC4 none ≤
        calculate_portfolio_value [("7203", 2)] priceC4 none :=
  ⟨by norm_num [priceC4], by norm_num, by norm_num [fxFactor],
    c4_valuation_monotone_below_ceiling [] [] "7203" 1 2 priceC4 none 1000000
      (by norm_num [priceC4]) (by norm_num) (by norm_num [fxFactor])⟩

/-! ## Claim C10 -/

/-- C10: when `calculate_portfolio_value` receives `exchange_rate = None`,
a held non-JPY ticker with a known valid price (within the 10¹³ ceiling)
contributes `shares × price` to the total *unconverted* — it is included,
not skipped; a non-JPY position is dropped for FX reasons exactly when a
numeric rate outside `(0, 1000]` is supplied. -/
theorem c10_fx_none_includes_unconverted (A B : List (String × ℕ))
    (prices : String → Option ℚ) (code : String) (s : ℕ) (p r : ℚ)
    (hp : prices code = some p) (h0 : 0 < p) (h1 : p ≤ 1000000)
    (husd : firstCharIsDigit code = false)
    (hceil : (s : ℚ) * p ≤ 10000000000000)
    (hr : r ≤ 0 ∨ r > 1000) :
    calculate_portfolio_value (A ++ (code, s) :: B) prices none =
        calculate_portfolio_value A prices none + (s : ℚ) * p +
          calculate_portfolio_value B prices none ∧
      calculate_portfolio_value (A ++ (code, s) :: B) prices (some r) =
        calculate_portfolio_value A prices (some r) +
          calculate_portfolio_value B prices (some r) := by
  have hv : ¬(p ≤ 0 ∨ p > 1000000) := by push_neg; exact ⟨h0, h1⟩
  constructor
  · rw [calculate_portfolio_value_eq_sum, calculate_portfolio_value_eq_sum,
      calculate_portfolio_value_eq_sum]
    simp only [List.map_append, List.map_cons, List.sum_append, List.sum_cons]
    have hpv : positionValue prices none code s = (s : ℚ) * p := by
      unfold positionValue
      rw [hp]
      dsimp only
      rw [if_neg hv, if_neg (not_lt.mpr hceil)]
    rw [hpv]; ring
  · rw [calculate_portfolio_value_eq_sum, calculate_portfolio_value_eq_sum,
      calculate_portfolio_value_eq_sum]
    simp only [List.map_append, List.map_cons, List.sum_append, List.sum_cons]
    have hpv : positionValue prices (some r) code s = 0 := by
      unfold positionValue
      rw [hp]
      dsimp only
      rw [if_neg hv]
      simp only [husd, Bool.false_eq_true, if_false]
      rw [if_pos hr]
    rw [hpv]; ring

theorem c10_witness :
    priceC4 "7203" = some 1000000 ∧ firstCharIsDigit "AAPL" = false ∧
      calculate_portfolio_value [("AAPL", 3)] (fun _ => some 150) none = 450 ∧
      calculate_portfolio_value [("AAPL", 3)] (fun _ => some 150) (some 2000) = 0 :=
  ⟨by norm_num [priceC4], by decide,
    by
      have h := (c10_fx_none_includes_unconverted [] [] (fun _ => some 150)
        "AAPL" 3 150 2000 rfl (by norm_num) (by norm_num) (by decide)
        (by norm_num) (by norm_num)).1
      simp only [List.nil_append] at h
      rw [h]
      norm_num [calculate_portfolio_value, List.foldl],
    by
      have h := (c10_fx_none_includes_unconverted [] [] (fun _ => some 150)
        "AAPL" 3 150 2000 rfl (by norm_num) (by norm_num) (by decide)
        (by norm_num) (by norm_num)).2
      simp only [List.nil_append] at h
      rw [h]
      norm_num [calculate_portfolio_value, List.foldl]⟩

/-! ## Claim C5 -/

theorem lookupShares?_cons_self (c : String) (n : ℕ) (l : List (String × ℕ))
    (code : String) (h : c = code) : lookupShares? ((c, n) :: l) code = some n := by
  simp [lookupShares?, List.find?, h]

theorem lookupShares?_cons_ne (c : String) (n : ℕ) (l : List (String × ℕ))
    (code : String) (h : ¬(c = code)) :
    lookupShares? ((c, n) :: l) code = lookupShares? l code := by
  simp [lookupShares?, List.find?, beq_eq_false_iff_ne.mpr h]

theorem targetPortfolioAux_lookup_none (env : RebalanceEnv) (inv : ℚ) :
    ∀ (l : List (String × ℕ)) (k : ℕ) (code : String),
      code ∉ l.map Prod.fst →
      lookupShares? (targetPortfolioAux env inv k l) code = none := by
  intro l
  induction l with
  | nil => intro k code _; rfl
  | cons hd tl ih =>
    intro k code h
    obtain ⟨c, v⟩ := hd
    simp only [List.map_cons, List.mem_cons, not_or] at h
    obtain ⟨hne, hnotin⟩ := h
    simp only [targetPortfolioAux]
    cases env.alloc.get? k with
    | none => exact ih (k + 1) code hnotin
    | some w =>
      dsimp only
      cases env.price c with
      | none => exact ih (k + 1) code hnotin
      | some p =>
        dsimp only
        by_cases hp : p > 0
        · rw [if_pos hp]
          by_cases ht : targetSharesCalc (inv * (w / 100)) p > 0
          · rw [if_pos ht, lookupShares?_cons_ne c _ _ code (fun hc => hne hc.symm)]
            exact ih (k + 1) code hnotin
          · rw [if_neg ht]
            exact ih (k + 1) code hnotin
        · rw [if_neg hp]
          exact ih (k + 1) code hnotin

theorem targetPortfolioAux_lookup (env : RebalanceEnv) (inv : ℚ) :
    ∀ (l : List (String × ℕ)) (i k : ℕ) (code : String) (v : ℕ),
      l.get? i = some (code, v) → (l.map Prod.fst).Nodup →
      lookupShares? (targetPortfolioAux env inv k l) code =
        (match env.alloc.get? (k + i), env.price code with
        | some w, some p =>
          if p > 0 then
            if targetSharesCalc (inv * (w / 100)) p > 0 then
              some (targetSharesCalc (inv * (w / 100)) p)
            else none
          else none
        | _, _ => none) := by
  intro l
  induction l with
  | nil => intro i k code v h; simp at h
  | cons hd tl ih =>
    intro i k code v hget hnd
    obtain ⟨c, v₀⟩ := hd
    simp only [List.map_cons, List.nodup_cons] at hnd
    obtain ⟨hcnot, hndtl⟩ := hnd
    cases i with
    | zero =>
      simp only [List.get?] at hget
      obtain ⟨rfl, rfl⟩ : c = code ∧ v₀ = v := by
        injection hget with h'; exact ⟨congrArg Prod.fst h', congrArg Prod.snd h'⟩
      simp only [targetPortfolioAux, Nat.add_zero]
      cases ha : env.alloc.get? k with
      | none => exact targetPortfolioAux_lookup_none env inv tl (k + 1) c hcnot
      | some w =>
        dsimp only
        cases hp : env.price c with
        | none => exact targetPortfolioAux_lookup_none env inv tl (k + 1) c hcnot
        | some p =>
          dsimp only
          by_cases hpp : p > 0
          · simp only [if_pos hpp]
            by_cases ht : targetSharesCalc (inv * (w / 100)) p > 0
            · simp only [if_pos ht]
              exact lookupShares?_cons_self c _ _ c rfl
            · simp only [if_neg ht]
              exact targetPortfolioAux_lookup_none env inv tl (k + 1) c hcnot
          · simp only [if_neg hpp]
            exact targetPortfolioAux_lookup_none env inv tl (k + 1) c hcnot
    | succ j =>
      simp only [List.get?] at hget
      have hmem : code ∈ tl.map Prod.fst := by
        have : (code, v) ∈ tl := List.get?_mem hget
        exact List.mem_map.mpr ⟨(code, v), this, rfl⟩
      have hne : ¬(c = code) := fun hc => hcnot (hc ▸ hmem)
      have hidx : k + 1 + j = k + (j + 1) := by omega
      simp only [targetPortfolioAux]
      cases ha : env.alloc.get? k with
      | none => rw [ih j (k + 1) code v hget hndtl, hidx]
      | some w =>
        dsimp only
        cases hp : env.price c with
        | none => rw [ih j (k + 1) code v hget hndtl, hidx]
        | some p =>
          dsimp only
          by_cases hpp : p > 0
          · rw [if_pos hpp]
            by_cases ht : targetSharesCalc (inv * (w / 100)) p > 0
            · rw [if_pos ht, lookupShares?_cons_ne c _ _ code hne,
                ih j (k + 1) code v hget hndtl, hidx]
            · rw [if_neg ht, ih j (k + 1) code v hget hndtl, hidx]
          · rw [if_neg hpp, ih j (k + 1) code v hget hndtl, hidx]

/-- C5: for a ranked ticker at rank `i` carrying allocation weight `w` and a
valid positive price `p`, the computed target share count is exactly
`⌊(target_notional − cost(target_notional)) / p⌋` with
`target_notional = investable × w/100` at the default 0.17% total cost rate;
it is never negative, and the ticker enters the target portfolio exactly
when the count is positive (zero results are dropped). -/
theorem c5_target_share_formula (env : RebalanceEnv) (inv : ℚ) (i : ℕ)
    (code : String) (v : ℕ) (w p : ℚ)
    (hnd : (env.votes.map Prod.fst).Nodup)
    (hv : env.votes.get? i = some (code, v))
    (ha : env.alloc.get? i = some w)
    (hp : env.price code = some p) (hppos : 0 < p)
    (htv : 0 ≤ inv * (w / 100)) :
    ((targetSharesCalc (inv * (w / 100)) p : ℤ) =
        ⌊(inv * (w / 100) - calculate_trading_cost (inv * (w / 100))) / p⌋ ∧
      0 ≤ ⌊(inv * (w / 100) - calculate_trading_cost (inv * (w / 100))) / p⌋) ∧
    lookupShares? (targetPortfolio env inv) code =
      (if targetSharesCalc (inv * (w / 100)) p > 0 then
        some (targetSharesCalc (inv * (w / 100)) p)
      else none) := by
  have hrate : (0 : ℚ) ≤ 1 - totalCostRate := by norm_num [totalCostRate]
  have hnet : 0 ≤ inv * (w / 100) - calculate_trading_cost (inv * (w / 100)) := by
    have hrw : inv * (w / 100) - calculate_trading_cost (inv * (w / 100)) =
        inv * (w / 100) * (1 - totalCostRate) := by
      unfold calculate_trading_cost; ring
    rw [hrw]
    exact mul_nonneg htv hrate
  have hq : 0 ≤ (inv * (w / 100) - calculate_trading_cost (inv * (w / 100))) / p :=
    div_nonneg hnet (le_of_lt hppos)
  have hfl : 0 ≤ ⌊(inv * (w / 100) - calculate_trading_cost (inv * (w / 100))) / p⌋ :=
    Int.floor_nonneg.mpr hq
  refine ⟨⟨?_, hfl⟩, ?_⟩
  · unfold targetSharesCalc pyInt
    rw [if_pos hq]
    exact Int.toNat_of_nonneg hfl
  · have h := targetPortfolioAux_lookup env inv env.votes i 0 code v hv hnd
    rw [targetPortfolio, h]
    simp only [Nat.zero_add, ha, hp, if_pos hppos]

/-- Price feed for the C5 witness scenario: ticker "7203" quoted at 2,000. -/
def priceC5 : String → Option ℚ :=
  fun c => if c = "7203" then some 2000 else none

/-- Environment for the C5 witness: 1,000,000 JPY investable, single ranked
ticker "7203" with a 100% allocation at rank 1. -/
def envC5 : RebalanceEnv :=
  { price := priceC5
    votes := [("7203", 5)]
    alloc := [100]
    initial := 1000000
    initialTotal := 1000000
    otherValue := 0
    otherEmpty := true
    currency := .JPY
    exchange_rate := none
    tradeDate := 0
    voteDate := 0 }

theorem c5_witness :
    targetSharesCalc ((1000000 : ℚ) * (100 / 100)) 2000 = 499 ∧
      lookupShares? (targetPortfolio envC5 1000000) "7203" = some 499 := by
  have hval : targetSharesCalc ((1000000 : ℚ) * (100 / 100)) 2000 = 499 := by
    norm_num [targetSharesCalc, pyInt, calculate_trading_cost, totalCostRate]
    decide
  refine ⟨hval, ?_⟩
  have h := (c5_target_share_formula envC5 1000000 0 "7203" 5 100 2000
    (by decide) rfl rfl (by norm_num [envC5, priceC5]) (by norm_num)
    (by norm_num)).2
  rw [h, hval]
  norm_num

/-! ## Claim C3 -/

/-- C3: cash never goes negative as a direct result of a buy.  Every cash
deduction in the buy pass — full shortfall buys and partial 99%-of-cash buys
alike — is guarded by `total_cost <= cash`, so starting from non-negative
cash the bucket's cash is non-negative after the whole pass (and hence after
every individual purchase, which is the same pass run on a prefix of the
target list).  The identical algorithm runs for the JPY and the USD bucket. -/
theorem c3_buy_pass_keeps_cash_nonneg (env : RebalanceEnv)
    (targets port : List (String × ℕ)) (cash : ℚ) (h : 0 ≤ cash) :
    0 ≤ (buyPass env targets port cash).2.1 := by
  induction targets generalizing port cash with
  | nil => simpa [buyPass] using h
  | cons hd tl ih =>
    obtain ⟨code, target⟩ := hd
    simp only [buyPass]
    by_cases h1 : target > lookupShares port code
    · rw [if_pos h1]
      cases hp : env.price code with
      | none => exact ih port cash h
      | some p =>
        dsimp only
        by_cases hpp : p > 0
        · rw [if_pos hpp]
          set buyValue := ((target - lookupShares port code : ℕ) : ℚ) * p with hbv
          by_cases hc : buyValue + calculate_trading_cost buyValue ≤ cash
          · rw [if_pos hc]
            have hrec := ih (setShares port code target)
              (cash - (buyValue + calculate_trading_cost buyValue)) (by linarith)
            rcases hb : buyPass env tl (setShares port code target)
              (cash - (buyValue + calculate_trading_cost buyValue)) with ⟨pf, cf, ts⟩
            rw [hb] at hrec
            simpa [hb] using hrec
          · rw [if_neg hc]
            by_cases ha : (pyInt (cash * (99 / 100) / (p * (1 + totalCostRate)))).toNat > 0
            · rw [if_pos ha]
              set buyValue2 :=
                (((pyInt (cash * (99 / 100) / (p * (1 + totalCostRate)))).toNat : ℚ)) * p
                with hbv2
              by_cases hc2 : buyValue2 + calculate_trading_cost buyValue2 ≤ cash
              · rw [if_pos hc2]
                have hrec := ih
                  (setShares port code
                    (lookupShares port code +
                      (pyInt (cash * (99 / 100) / (p * (1 + totalCostRate)))).toNat))
                  (cash - (buyValue2 + calculate_trading_cost buyValue2)) (by linarith)
                rcases hb : buyPass env tl
                  (setShares port code
                    (lookupShares port code +
                      (pyInt (cash * (99 / 100) / (p * (1 + totalCostRate)))).toNat))
                  (cash - (buyValue2 + calculate_trading_cost buyValue2)) with ⟨pf, cf, ts⟩
                rw [hb] at hrec
                simpa [hb] using hrec
              · rw [if_neg hc2]
                exact ih port cash h
            · rw [if_neg ha]
              exact ih port cash h
        · rw [if_neg hpp]
          exact ih port cash h
    · rw [if_neg h1]
      exact ih port cash h

theorem c3_witness :
    (0 : ℚ) ≤ 1000 ∧
      0 ≤ (buyPass envC5 [("7203", 10)] [] 1000).2.1 :=
  ⟨by norm_num, c3_buy_pass_keeps_cash_nonneg envC5 [("7203", 10)] [] 1000 (by norm_num)⟩

/-! ## Claim C2 -/

theorem exitPass_proceeds_eq (env : RebalanceEnv) (l : List (String × ℕ)) :
    (exitPass env l).2.1 = ((exitPass env l).1.map claimedCashDelta).sum := by
  induction l with
  | nil => simp [exitPass]
  | cons hd tl ih =>
    obtain ⟨code, shares⟩ := hd
    simp only [exitPass]
    rcases ht : exitPass env tl with ⟨ts, proceeds, kept⟩
    rw [ht] at ih
    dsimp only at ih ⊢
    by_cases hvv : env.votes.any (fun v => v.1 == code)
    · simp only [if_pos hvv]
      exact ih
    · simp only [if_neg hvv]
      cases hp : env.price code with
      | none => exact ih
      | some p =>
        dsimp only
        simp only [List.map_cons, List.sum_cons, claimedCashDelta]
        rw [ih]

theorem trimPass_trades_sum_eq (env : RebalanceEnv) (T : List (String × ℕ))
    (l : List (String × ℕ)) :
    (((trimPass env T l).1.map claimedCashDelta)).sum = additionalSales env T l := by
  induction l with
  | nil => simp [trimPass, additionalSales]
  | cons hd tl ih =>
    obtain ⟨code, cur⟩ := hd
    simp only [trimPass, additionalSales]
    rcases ht : trimPass env T tl with ⟨ts, port⟩
    rw [ht] at ih
    dsimp only at ih ⊢
    by_cases hlt : lookupShares T code < cur
    · simp only [if_pos hlt]
      cases hp : env.price code with
      | none => exact ih
      | some p =>
        dsimp only
        simp only [List.map_cons, List.sum_cons, claimedCashDelta]
        rw [ih]
    · simp only [if_neg hlt]
      exact ih

theorem buyPass_cash_eq (env : RebalanceEnv) :
    ∀ (targets port : List (String × ℕ)) (cash : ℚ),
      (buyPass env targets port cash).2.1 =
        cash + (((buyPass env targets port cash).2.2).map claimedCashDelta).sum := by
  intro targets
  induction targets with
  | nil => intro port cash; simp [buyPass]
  | cons hd tl ih =>
    intro port cash
    obtain ⟨code, target⟩ := hd
    simp only [buyPass]
    by_cases h1 : target > lookupShares port code
    · rw [if_pos h1]
      cases hp : env.price code with
      | none => exact ih port cash
      | some p =>
        dsimp only
        by_cases hpp : p > 0
        · rw [if_pos hpp]
          by_cases hc : ((target - lookupShares port code : ℕ) : ℚ) * p +
              calculate_trading_cost (((target - lookupShares port code : ℕ) : ℚ) * p) ≤ cash
          · rw [if_pos hc]
            rcases hb : buyPass env tl (setShares port code target)
              (cash - (((target - lookupShares port code : ℕ) : ℚ) * p +
                calculate_trading_cost (((target - lookupShares port code : ℕ) : ℚ) * p)))
              with ⟨pf, cf, ts⟩
            have hrec := ih (setShares port code target)
              (cash - (((target - lookupShares port code : ℕ) : ℚ) * p +
                calculate_trading_cost (((target - lookupShares port code : ℕ) : ℚ) * p)))
            rw [hb] at hrec
            dsimp only at hrec ⊢
            simp only [List.map_cons, List.sum_cons, claimedCashDelta]
            rw [hrec]
            ring
          · rw [if_neg hc]
            by_cases ha : (pyInt (cash * (99 / 100) / (p * (1 + totalCostRate)))).toNat > 0
            · rw [if_pos ha]
              set n := (pyInt (cash * (99 / 100) / (p * (1 + totalCostRate)))).toNat with hn
              by_cases hc2 : (n : ℚ) * p + calculate_trading_cost ((n : ℚ) * p) ≤ cash
              · rw [if_pos hc2]
                rcases hb : buyPass env tl (setShares port code (lookupShares port code + n))
                  (cash - ((n : ℚ) * p + calculate_trading_cost ((n : ℚ) * p)))
                  with ⟨pf, cf, ts⟩
                have hrec := ih (setShares port code (lookupShares port code + n))
                  (cash - ((n : ℚ) * p + calculate_trading_cost ((n : ℚ) * p)))
                rw [hb] at hrec
                dsimp only at hrec ⊢
                simp only [List.map_cons, List.sum_cons, claimedCashDelta]
                rw [hrec]
                ring
              · rw [if_neg hc2]
                exact ih port cash
            · rw [if_neg ha]
              exact ih port cash
        · rw [if_neg hpp]
          exact ih port cash
    · rw [if_neg h1]
      exact ih port cash

/-- C2 (amended): per-trade cash conservation holds for exit-pass sells and
for buys unconditionally; for the differential trim pass the engine credits
cash from the *provisional* target portfolio while the recorded trades are
sized by the *final* target portfolio, so the per-trade law holds whenever
the two targets coincide: then the bucket's final cash equals the starting
cash plus the sum over every recorded trade of its claimed delta
(`−(shares×price + cost)` for buys, `shares×price − cost` for sells). -/
theorem c2_cash_conservation_when_targets_agree (env : RebalanceEnv)
    (portfolio0 : List (String × ℕ)) (cash0 : ℚ)
    (h : tempTargetOf env portfolio0 cash0 = finalTargetOf env portfolio0 cash0) :
    (rebalanceBucket env portfolio0 cash0).cash =
      cash0 + (((rebalanceBucket env portfolio0 cash0).trades.map claimedCashDelta)).sum := by
  unfold rebalanceBucket
  rcases he : exitPass env portfolio0 with ⟨exitTrades, proceeds, temp1⟩
  rcases ht : trimPass env (finalTargetOf env portfolio0 cash0) temp1 with ⟨trimTrades, temp2⟩
  rcases hb : buyPass env (finalTargetOf env portfolio0 cash0) temp2
    (cash0 + proceeds + additionalSales env (tempTargetOf env portfolio0 cash0) temp1)
    with ⟨portF, cashF, buyTrades⟩
  simp only [he, ht, hb]
  have e1 : proceeds = (exitTrades.map claimedCashDelta).sum := by
    have := exitPass_proceeds_eq env portfolio0
    rw [he] at this
    exact this
  have e2 : (trimTrades.map claimedCashDelta).sum =
      additionalSales env (tempTargetOf env portfolio0 cash0) temp1 := by
    have := trimPass_trades_sum_eq env (finalTargetOf env portfolio0 cash0) temp1
    rw [ht] at this
    rw [← h] at this
    exact this
  have e3 : cashF =
      (cash0 + proceeds + additionalSales env (tempTargetOf env portfolio0 cash0) temp1) +
        (buyTrades.map claimedCashDelta).sum := by
    have := buyPass_cash_eq env (finalTargetOf env portfolio0 cash0) temp2
      (cash0 + proceeds + additionalSales env (tempTargetOf env portfolio0 cash0) temp1)
    rw [hb] at this
    exact this
  simp only [List.map_append, List.sum_append]
  rw [e3, e1, ← e2]
  ring

end DiscoverStocks

namespace DiscoverStocks

/-- Environment for the C2 counterexample: one held JPY ticker "6501"
(200 shares at price 100), ranked first in the vote with a 50% allocation
weight. -/
def envC2 : RebalanceEnv :=
  { price := fun c => if c = "6501" then some 100 else none
    votes := [("6501", 3)]
    alloc := [50]
    initial := 1000000
    initialTotal := 2000000
    otherValue := 0
    otherEmpty := true
    currency := .JPY
    exchange_rate := none
    tradeDate := 9
    voteDate := 8 }

/-- The single trade the C2 counterexample run records: a trim-pass sell of
101 shares of "6501" at price 100. -/
def trimTradeC2 : Trade :=
  ⟨9, 8, "6501", .sell, 101, 100, 10100, .JPY, none⟩

/-- C2 (counterexample): per-trade cash conservation fails for differential
trim-pass sells.  With 200 shares of "6501" held at price 100 and cash 40,
the provisional target is 100 shares but the final target is 99, so the
engine credits the proceeds of a 100-share trim (9,983) while recording a
101-share sell; final cash is 10,023, not
`40 + (101×100 − cost(101×100)) = 10,122.83` as the per-trade law demands
of the single recorded trade. -/
theorem c2_trim_cash_mismatch_counterexample :
    (rebalanceBucket envC2 [("6501", 200)] 40).trades = [trimTradeC2] ∧
      (rebalanceBucket envC2 [("6501", 200)] 40).cash ≠
        40 + claimedCashDelta trimTradeC2 := by
  have h1 : exitPass envC2 [("6501", 200)] = ([], 0, [("6501", 200)]) := by
    norm_num [exitPass, envC2]
  have h3 : tempTargetOf envC2 [("6501", 200)] 40 = [("6501", 100)] := by
    norm_num [tempTargetOf, targetPortfolio, targetPortfolioAux, tempInvestment, envC2, exitPass,
      calculate_portfolio_value, positionValue, investmentValue, List.foldl, targetSharesCalc,
      calculate_trading_cost, totalCostRate, pyInt, List.get?, Int.toNat_ofNat]
    decide
  have h4 : additionalSales envC2 [("6501", 100)] [("6501", 200)] = 9983 := by
    norm_num [additionalSales, envC2, lookupShares, List.find?, calculate_trading_cost,
      totalCostRate]
  have h5 : finalInvestment envC2 [("6501", 200)] 40 = 20023 := by
    simp only [finalInvestment, h3]
    norm_num [envC2, exitPass, calculate_portfolio_value, positionValue, investmentValue,
      List.foldl, additionalSales, trimValue, lookupShares, List.find?, calculate_trading_cost,
      totalCostRate]
  have h6 : finalTargetOf envC2 [("6501", 200)] 40 = [("6501", 99)] := by
    simp only [finalTargetOf, targetPortfolio, h5]
    norm_num [targetPortfolioAux, envC2, targetSharesCalc, calculate_trading_cost, totalCostRate,
      pyInt, List.get?, Int.toNat_ofNat]
    decide
  have h7 : trimPass envC2 [("6501", 99)] [("6501", 200)] = ([trimTradeC2], [("6501", 99)]) := by
    norm_num [trimPass, envC2, lookupShares, List.find?, trimTradeC2]
  have h8 : buyPass envC2 [("6501", 99)] [("6501", 99)] 10023 = ([("6501", 99)], 10023, []) := by
    norm_num [buyPass, envC2, lookupShares, List.find?]
  constructor
  · simp only [rebalanceBucket, h1, h3, h4, h6, h7]
    norm_num [h8]
  · simp only [rebalanceBucket, h1, h3, h4, h6, h7]
    norm_num [h8, claimedCashDelta, trimTradeC2, calculate_trading_cost, totalCostRate]

/-- Environment for the C2 witness: as `envC2` but with a 100% allocation
weight, for which the provisional and final targets agree (both 199). -/
def envC2w : RebalanceEnv :=
  { envC2 with alloc := [100] }

theorem c2_witness :
    tempTargetOf envC2w [("6501", 200)] 0 = finalTargetOf envC2w [("6501", 200)] 0 ∧
      (rebalanceBucket envC2w [("6501", 200)] 0).cash =
        0 + (((rebalanceBucket envC2w [("6501", 200)] 0).trades.map claimedCashDelta)).sum := by
  have htmp : tempTargetOf envC2w [("6501", 200)] 0 = [("6501", 199)] := by
    norm_num [tempTargetOf, targetPortfolio, targetPortfolioAux, tempInvestment, envC2w, envC2,
      exitPass, calculate_portfolio_value, positionValue, investmentValue, List.foldl,
      targetSharesCalc, calculate_trading_cost, totalCostRate, pyInt, List.get?, Int.toNat_ofNat]
    decide
  have hfin : finalTargetOf envC2w [("6501", 200)] 0 = [("6501", 199)] := by
    have h5 : finalInvestment envC2w [("6501", 200)] 0 = 19999 + 83/100 := by
      simp only [finalInvestment, htmp]
      norm_num [envC2w, envC2, exitPass, calculate_portfolio_value, positionValue,
        investmentValue, List.foldl, additionalSales, trimValue, lookupShares, List.find?,
        calculate_trading_cost, totalCostRate]
    simp only [finalTargetOf, targetPortfolio, h5]
    norm_num [targetPortfolioAux, envC2w, envC2, targetSharesCalc, calculate_trading_cost,
      totalCostRate, pyInt, List.get?, Int.toNat_ofNat]
    decide
  have hagree : tempTargetOf envC2w [("6501", 200)] 0 = finalTargetOf envC2w [("6501", 200)] 0 :=
    htmp.trans hfin.symm
  exact ⟨hagree, c2_cash_conservation_when_targets_agree envC2w [("6501", 200)] 0 hagree⟩

end DiscoverStocks

namespace DiscoverStocks

/-! ## Claim C6 -/

theorem matchStep_sound (s : Trade) (acc : Option Trade) (hd : Trade)
    (hacc : ∀ x, acc = some x → isPriorBuy s x = true) :
    ∀ x, matchStep s acc hd = some x → isPriorBuy s x = true := by
  intro x hx
  unfold matchStep at hx
  by_cases hp : isPriorBuy s hd
  · rw [if_pos hp] at hx
    cases acc with
    | none =>
      injection hx with h
      rw [← h]
      exact hp
    | some best =>
      dsimp only at hx
      by_cases hdt : hd.date > best.date
      · rw [if_pos hdt] at hx
        injection hx with h
        rw [← h]
        exact hp
      · rw [if_neg hdt] at hx
        exact hacc x hx
  · rw [if_neg hp] at hx
    exact hacc x hx

theorem matchStep_mem (s : Trade) (acc : Option Trade) (hd : Trade) :
    ∀ x, matchStep s acc hd = some x → x = hd ∨ acc = some x := by
  intro x hx
  unfold matchStep at hx
  by_cases hp : isPriorBuy s hd
  · rw [if_pos hp] at hx
    cases acc with
    | none =>
      injection hx with h
      exact Or.inl h.symm
    | some best =>
      dsimp only at hx
      by_cases hdt : hd.date > best.date
      · rw [if_pos hdt] at hx
        injection hx with h
        exact Or.inl h.symm
      · rw [if_neg hdt] at hx
        exact Or.inr hx
  · rw [if_neg hp] at hx
    exact Or.inr hx

theorem matchStep_keeps_date (s : Trade) (acc : Option Trade) (hd : Trade)
    (a : Trade) (ha : acc = some a) :
    ∃ y, matchStep s acc hd = some y ∧ a.date ≤ y.date := by
  unfold matchStep
  by_cases hp : isPriorBuy s hd
  · rw [if_pos hp, ha]
    dsimp only
    by_cases hdt : hd.date > a.date
    · rw [if_pos hdt]
      exact ⟨hd, rfl, le_of_lt hdt⟩
    · rw [if_neg hdt]
      exact ⟨a, rfl, le_rfl⟩
  · rw [if_neg hp]
    exact ⟨a, ha, le_rfl⟩

theorem matchStep_adopts (s : Trade) (acc : Option Trade) (hd : Trade)
    (hp : isPriorBuy s hd = true) :
    ∃ y, matchStep s acc hd = some y ∧ hd.date ≤ y.date := by
  unfold matchStep
  rw [if_pos hp]
  cases acc with
  | none => exact ⟨hd, rfl, le_rfl⟩
  | some best =>
    dsimp only
    by_cases hdt : hd.date > best.date
    · rw [if_pos hdt]
      exact ⟨hd, rfl, le_rfl⟩
    · rw [if_neg hdt]
      exact ⟨best, rfl, by omega⟩

/-- Invariant-carrying specification of the matching-buy fold: the result is
an eligible prior buy drawn from the scanned list (or the sound start
accumulator), it dominates every eligible prior buy's date, and a `none`
result means no eligible prior buy exists. -/
theorem matchFold_spec (s : Trade) :
    ∀ (l : List Trade) (acc : Option Trade),
      (∀ x, acc = some x → isPriorBuy s x = true) →
      (∀ x, l.foldl (matchStep s) acc = some x →
          (x ∈ l ∨ acc = some x) ∧ isPriorBuy s x = true) ∧
      (∀ b ∈ l, isPriorBuy s b = true →
          ∃ x, l.foldl (matchStep s) acc = some x ∧ b.date ≤ x.date) ∧
      (∀ a x, acc = some a → l.foldl (matchStep s) acc = some x → a.date ≤ x.date) ∧
      (l.foldl (matchStep s) acc = none →
          acc = none ∧ ∀ b ∈ l, isPriorBuy s b = false) := by
  intro l
  induction l with
  | nil =>
    intro acc hacc
    refine ⟨?_, ?_, ?_, ?_⟩
    · intro x hx
      exact ⟨Or.inr hx, hacc x hx⟩
    · intro b hb
      simp at hb
    · intro a x ha hx
      rw [ha] at hx
      injection hx with h
      rw [h]
    · intro h
      exact ⟨h, by simp⟩
  | cons hd tl ih =>
    intro acc hacc
    have hacc' := matchStep_sound s acc hd hacc
    obtain ⟨ih1, ih2, ih3, ih4⟩ := ih (matchStep s acc hd) hacc'
    refine ⟨?_, ?_, ?_, ?_⟩
    · intro x hx
      rw [List.foldl_cons] at hx
      obtain ⟨hmem, hpx⟩ := ih1 x hx
      refine ⟨?_, hpx⟩
      cases hmem with
      | inl h => exact Or.inl (List.mem_cons_of_mem _ h)
      | inr h =>
        cases matchStep_mem s acc hd x h with
        | inl h' => exact Or.inl (h' ▸ List.mem_cons_self _ _)
        | inr h' => exact Or.inr h'
    · intro b hb hpb
      rw [List.foldl_cons]
      cases List.mem_cons.mp hb with
      | inl h =>
        subst h
        obtain ⟨y, hy, hdy⟩ := matchStep_adopts s acc b hpb
        cases hres : tl.foldl (matchStep s) (matchStep s acc b) with
        | none =>
          obtain ⟨haccnone, _⟩ := ih4 hres
          rw [hy] at haccnone
          cases haccnone
        | some x =>
          exact ⟨x, rfl, le_trans hdy (ih3 y x hy hres)⟩
      | inr h => exact ih2 b h hpb
    · intro a x ha hx
      rw [List.foldl_cons] at hx
      obtain ⟨y, hy, hay⟩ := matchStep_keeps_date s acc hd a ha
      exact le_trans hay (ih3 y x hy hx)
    · intro h
      rw [List.foldl_cons] at h
      obtain ⟨hacc'none, htl⟩ := ih4 h
      have hhd : isPriorBuy s hd = false := by
        by_cases hp : isPriorBuy s hd
        · exfalso
          obtain ⟨y, hy, _⟩ := matchStep_adopts s acc hd hp
          rw [hy] at hacc'none
          cases hacc'none
        · exact (Bool.not_eq_true _).mp hp
      have haccnone : acc = none := by
        cases hacc_case : acc with
        | none => rfl
        | some a =>
          exfalso
          obtain ⟨y, hy, _⟩ := matchStep_keeps_date s acc hd a hacc_case
          rw [hy] at hacc'none
          cases hacc'none
      refine ⟨haccnone, fun b hb => ?_⟩
      cases List.mem_cons.mp hb with
      | inl h' => exact h' ▸ hhd
      | inr h' => exact htl b h'

theorem foldl_if_sum {α : Type} (P : α → Bool) (f : α → ℚ) :
    ∀ (l : List α) (acc : ℚ),
      l.foldl (fun a t => if P t then a + f t else a) acc =
        acc + ((l.filter P).map f).sum := by
  intro l
  induction l with
  | nil => intro acc; simp
  | cons hd tl ih =>
    intro acc
    by_cases h : P hd
    · simp [List.filter_cons, h, ih, add_assoc]
    · simp [List.filter_cons, h, ih]

/-- C6: the realized-P&L reconstruction sums, over every `売却` dated at or
before the as-of date, the contribution of that sell; a sell with no
strictly-earlier `購入` of the same ticker contributes nothing; and the
matching buy returned by the scan is an eligible prior buy from the ledger
whose date dominates every other eligible prior buy's date — the
most-recent-prior-buy rule, applied regardless of whether that buy was
already matched to an earlier sell. -/
theorem c6_realized_pnl_nearest_prior_buy (history : List Trade) (asOf : ℕ) :
    realizedPnl history asOf =
      ((history.filter fun t => t.date ≤ asOf && t.action == TradeAction.sell).map
        (sellPnl history)).sum ∧
    (∀ s : Trade, (∀ b ∈ history, isPriorBuy s b = false) → sellPnl history s = 0) ∧
    (∀ s b, findMatchingBuy history s = some b →
        b ∈ history ∧ isPriorBuy s b = true ∧
          ∀ b' ∈ history, isPriorBuy s b' = true → b'.date ≤ b.date) := by
  refine ⟨?_, ?_, ?_⟩
  · exact (foldl_if_sum (fun t => t.date ≤ asOf && t.action == TradeAction.sell)
      (sellPnl history) history 0).trans (zero_add _)
  · intro s hnone
    obtain ⟨sp1, _, _, _⟩ := matchFold_spec s history none (by intro x hx; cases hx)
    cases hf : findMatchingBuy history s with
    | none => simp [sellPnl, hf]
    | some b =>
      exfalso
      obtain ⟨hmem, hpb⟩ := sp1 b hf
      cases hmem with
      | inl h => rw [hnone b h] at hpb; cases hpb
      | inr h => cases h
  · intro s b hf
    obtain ⟨sp1, sp2, _, _⟩ := matchFold_spec s history none (by intro x hx; cases hx)
    obtain ⟨hmem, hpb⟩ := sp1 b hf
    have hb : b ∈ history := by
      cases hmem with
      | inl h => exact h
      | inr h => cases h
    refine ⟨hb, hpb, fun b' hb' hpb' => ?_⟩
    obtain ⟨x, hx, hbx⟩ := sp2 b' hb' hpb'
    have hf' : List.foldl (matchStep s) none history = some b := hf
    rw [hf'] at hx
    injection hx with h
    rw [h]
    exact hbx

end DiscoverStocks

namespace DiscoverStocks

/-- Ledger for the C6 witness: two buys of "7203" (10 shares at 100 on day 1,
4 shares at 120 on day 3) and one sell of 10 shares at 150 on day 5. -/
def histC6 : List Trade :=
  [⟨1, 0, "7203", .buy, 10, 100, 1000, .JPY, none⟩,
   ⟨3, 2, "7203", .buy, 4, 120, 480, .JPY, none⟩,
   ⟨5, 4, "7203", .sell, 10, 150, 1500, .JPY, none⟩]

theorem c6_witness :
    realizedPnl histC6 5 =
      ((histC6.filter fun t => t.date ≤ 5 && t.action == TradeAction.sell).map
        (sellPnl histC6)).sum ∧
      realizedPnl histC6 5 = 300 := by
  refine ⟨(c6_realized_pnl_nearest_prior_buy histC6 5).1, ?_⟩
  norm_num [realizedPnl, histC6, List.foldl, sellPnl, findMatchingBuy, matchStep, isPriorBuy]
  decide

end DiscoverStocks

namespace DiscoverStocks

/-! ## Claim C7 -/

/-- C7: FX failure policy.  (1) If the start-date FX rate resolves to
nothing or to a non-positive value, `simulate_investment` returns empty
results — an empty snapshot list and an empty trade ledger.  (2) If the FX
rate for some day `d` resolves to nothing or to a non-positive value, the
daily loop emits no snapshot dated `d` and no trade dated `d`, and simply
advances — for *every* per-day state transformer `step` (in particular the
real rebalance/valuation work), provided `step` dates its trades with the
day it is invoked on, as the engine does (`'date': trade_date`). -/
theorem c7_fx_failure_skips_day {σ α : Type} (fx : ℕ → Option ℚ)
    (step : σ → ℕ → ℚ → σ × List Trade × α) (startDay : ℕ) (days : List ℕ)
    (init : ℚ → σ)
    (hstep : ∀ st d r, ∀ t ∈ (step st d r).2.1, t.date = d) :
    ((∀ r, fx startDay = some r → r ≤ 0) →
      simulateSkeleton fx step startDay days init = ([], [])) ∧
    (∀ (d : ℕ) (s : σ), (∀ r, fx d = some r → r ≤ 0) →
      (∀ sn ∈ (simDays fx step days s).1, sn.1 ≠ d) ∧
      (∀ t ∈ (simDays fx step days s).2, t.date ≠ d)) := by
  constructor
  · intro hstart
    unfold simulateSkeleton
    cases hs : fx startDay with
    | none => rfl
    | some r =>
      dsimp only
      rw [if_pos (hstart r hs)]
  · intro d
    induction days with
    | nil =>
      intro s hd
      exact ⟨by simp [simDays], by simp [simDays]⟩
    | cons d' rest ih =>
      intro s hd
      by_cases hw : 5 ≤ weekday d'
      · have : simDays fx step (d' :: rest) s = simDays fx step rest s := by
          simp [simDays, hw]
        rw [this]
        exact ih s hd
      · cases hfx : fx d' with
        | none =>
          have : simDays fx step (d' :: rest) s = simDays fx step rest s := by
            simp [simDays, hw, hfx]
          rw [this]
          exact ih s hd
        | some r =>
          by_cases hr : r ≤ 0
          · have : simDays fx step (d' :: rest) s = simDays fx step rest s := by
              simp [simDays, hw, hfx, hr]
            rw [this]
            exact ih s hd
          · have hne : d' ≠ d := by
              intro he
              exact hr (hd r (he ▸ hfx))
            rcases hst : step s d' r with ⟨s', trades, snap⟩
            rcases hrec : simDays fx step rest s' with ⟨snaps, ts⟩
            have hunf : simDays fx step (d' :: rest) s =
                ((d', snap) :: snaps, trades ++ ts) := by
              simp only [simDays, if_neg hw, hfx]
              rw [if_neg hr, hst]
              dsimp only
              rw [hrec]
            rw [hunf]
            obtain ⟨ihsn, ihtr⟩ := ih s' hd
            rw [hrec] at ihsn ihtr
            constructor
            · intro sn hsn
              cases List.mem_cons.mp hsn with
              | inl h => rw [h]; exact hne
              | inr h => exact ihsn sn h
            · intro t ht
              cases List.mem_append.mp ht with
              | inl h =>
                have := hstep s d' r t (by rw [hst]; exact h)
                rw [this]
                exact hne
              | inr h => exact ihtr t h

theorem c7_witness :
    simulateSkeleton (fun _ => (none : Option ℚ))
        (fun (_ : Unit) (_ : ℕ) (_ : ℚ) => ((), ([] : List Trade), ())) 0 [0, 1, 2]
        (fun _ => ()) = ([], []) ∧
      (∀ sn ∈ (simDays (fun _ => (none : Option ℚ))
          (fun (_ : Unit) (_ : ℕ) (_ : ℚ) => ((), ([] : List Trade), ())) [0, 1, 2] ()).1,
        sn.1 ≠ 1) :=
  ⟨(c7_fx_failure_skips_day (fun _ => none) _ 0 [0, 1, 2] (fun _ => ())
      (fun _ _ _ t ht => by cases ht)).1 (fun r hr => by cases hr),
    ((c7_fx_failure_skips_day (fun _ => none) _ 0 [0, 1, 2] (fun _ => ())
      (fun _ _ _ t ht => by cases ht)).2 1 () (fun r hr => by cases hr)).1⟩

end DiscoverStocks
